import Mathlib

set_option maxRecDepth 3000

/-!
Verification development for the multi-chain key-derivation engine of the
hederawallet repository (src/hederaCrypto.js).  JavaScript strings are
embedded as `List Char`, byte arrays as `List Nat` (each element < 256),
and the shared mutable configuration `bitjs.pub / bitjs.priv /
bitjs.compressed / coinjs.compressed` as an explicit `Globals` record that
is threaded through `generateMultiChain`.  External library routines that
are not part of the repository (bitjs / coinjs address encoders, the
Web3 Keccak-256 hash) are abstract parameters; library routines whose
behaviour the claims depend on (raw Base58 decoding, SHA-256, the
secp256k1 engine) are modelled explicitly, as documented on each
definition.
-/

namespace Hedera

/-! ## Generic byte/hex utilities (from src/hederaCrypto.js lines 5-17) -/

/-- Value of one hexadecimal digit character (as consumed by
`parseInt(..., 16)` on the guarded call sites of the source). -/
def hexDigitVal (c : Char) : Nat :=
  if 48 ≤ c.toNat ∧ c.toNat ≤ 57 then c.toNat - 48
  else if 97 ≤ c.toNat ∧ c.toNat ≤ 102 then c.toNat - 87
  else if 65 ≤ c.toNat ∧ c.toNat ≤ 70 then c.toNat - 55
  else 0

/-- Lowercase hexadecimal digit character, as produced by the JavaScript
`Number.prototype.toString(16)`. -/
def hexDigitChar (d : Nat) : Char :=
  if d < 10 then Char.ofNat (48 + d) else Char.ofNat (87 + d)

/-- `hexToBytes` from src/hederaCrypto.js lines 5-11: walks the string two
characters at a time (`substr(i, 2)`) and parses each chunk in base 16. -/
def hexToBytes : List Char → List Nat
  | [] => []
  | [c] => [hexDigitVal c]
  | c1 :: c2 :: rest => (hexDigitVal c1 * 16 + hexDigitVal c2) :: hexToBytes rest

/-- Big-endian digits of `n` in base `b`, fuel-driven so that the kernel can
evaluate it (`beDigitsF b fuel n` with `n ≤ fuel`). -/
def beDigitsF (b : Nat) : Nat → Nat → List Nat
  | 0, _ => []
  | fuel + 1, n => if n = 0 then [] else beDigitsF b fuel (n / b) ++ [n % b]

/-- Big-endian digits of `n` in base `b` (no leading zero digit). -/
def beDigits (b n : Nat) : List Nat := beDigitsF b n n

/-- `b.toString(16).padStart(2, '0')` for a byte `b`: the base-16 digits,
left-padded to two characters. -/
def jsByteToHex (b : Nat) : List Char :=
  if b < 16 then ['0', hexDigitChar b] else (beDigits 16 b).map hexDigitChar

/-- `bytesToHex` from src/hederaCrypto.js lines 13-17. -/
def bytesToHex (bytes : List Nat) : List Char :=
  (bytes.map jsByteToHex).foldr (· ++ ·) []

/-- The character class of the regular expression `/^[0-9a-fA-F]+$/`
(src/hederaCrypto.js line 81). -/
def isHexChar (c : Char) : Bool :=
  decide ((48 ≤ c.toNat ∧ c.toNat ≤ 57) ∨ (97 ≤ c.toNat ∧ c.toNat ≤ 102) ∨
    (65 ≤ c.toNat ∧ c.toNat ≤ 70))

/-- Whitespace removed by `String.prototype.trim`.  (JavaScript also trims
some rarer Unicode space characters; none of them can occur in the inputs
considered here.) -/
def isJsWS (c : Char) : Bool :=
  c.toNat == 32 || c.toNat == 9 || c.toNat == 10 || c.toNat == 13 ||
    c.toNat == 11 || c.toNat == 12

/-- `String.prototype.trim`: drop whitespace from both ends. -/
def jsTrim (s : List Char) : List Char :=
  ((s.dropWhile isJsWS).reverse.dropWhile isJsWS).reverse

/-- `Array.prototype.slice(0, e)` with a possibly negative end index `e`
(a negative index counts from the end of the array). -/
def jsSlice0 {α : Type} (l : List α) (e : Int) : List α :=
  l.take (if e < 0 then ((l.length : Int) + e).toNat else e.toNat)

/-- Little-endian digit evaluation: `ofDigitsLE b [d0, d1, ...] =
d0 + b * d1 + ...` (an executable clone of `Nat.ofDigits`). -/
def ofDigitsLE (b : Nat) (L : List Nat) : Nat :=
  L.foldr (fun d acc => d + b * acc) 0

/-- Big-endian interpretation of a byte string as a natural number. -/
def natOfBE (bytes : List Nat) : Nat := ofDigitsLE 256 bytes.reverse

/-- Big-endian byte string of `n`, left-padded with zero bytes to `len`
bytes. -/
def beBytesPad (len n : Nat) : List Nat :=
  List.replicate (len - (beDigits 256 n).length) 0 ++ beDigits 256 n

/-! ## SHA-256

Modelled from the spec: §4.3 defines the Base58Check checksum as the first
4 bytes of the double-hash of the payload, and the source (hashID,
src/hederaCrypto.js lines 40-43) double-hashes with the library routine
`Crypto.SHA256`, which is not under src/.  The function below is the
standard SHA-256 compression pipeline (FIPS 180-4) over byte lists. -/

/-- 2^32, the word modulus of SHA-256. -/
def m32 : Nat := 4294967296

/-- Right rotation of a 32-bit word. -/
def rotr32 (n x : Nat) : Nat := ((x >>> n) ||| (x <<< (32 - n))) % m32

/-- The 64 SHA-256 round constants (FIPS 180-4, in decimal). -/
def sha256K : List Nat :=
  [1116352408, 1899447441, 3049323471, 3921009573, 961987163,
   1508970993, 2453635748, 2870763221, 3624381080, 310598401,
   607225278, 1426881987, 1925078388, 2162078206, 2614888103,
   3248222580, 3835390401, 4022224774, 264347078, 604807628,
   770255983, 1249150122, 1555081692, 1996064986, 2554220882,
   2821834349, 2952996808, 3210313671, 3336571891, 3584528711,
   113926993, 338241895, 666307205, 773529912, 1294757372,
   1396182291, 1695183700, 1986661051, 2177026350, 2456956037,
   2730485921, 2820302411, 3259730800, 3345764771, 3516065817,
   3600352804, 4094571909, 275423344, 430227734, 506948616,
   659060556, 883997877, 958139571, 1322822218, 1537002063,
   1747873779, 1955562222, 2024104815, 2227730452, 2361852424,
   2428436474, 2756734187, 3204031479, 3329325298]

/-- The SHA-256 initial hash state (FIPS 180-4, in decimal). -/
def sha256H0 : List Nat :=
  [1779033703, 3144134277, 1013904242, 2773480762, 1359893119,
   2600822924, 528734635, 1541459225]

/-- SHA-256 message padding: append `0x80`, zero bytes, and the 8-byte
big-endian bit length. -/
def sha256Pad (msg : List Nat) : List Nat :=
  msg ++ 0x80 :: List.replicate ((64 - (msg.length + 9) % 64) % 64) 0 ++
    beBytesPad 8 (8 * msg.length)

/-- Group a byte list into big-endian 32-bit words. -/
def bytesToWords : List Nat → List Nat
  | b0 :: b1 :: b2 :: b3 :: rest =>
      (b0 * 16777216 + b1 * 65536 + b2 * 256 + b3) :: bytesToWords rest
  | _ => []

/-- Split a list into 64-element chunks (fuel-driven). -/
def chunks64F {α : Type} : Nat → List α → List (List α)
  | 0, _ => []
  | _ + 1, [] => []
  | fuel + 1, l => l.take 64 :: chunks64F fuel (l.drop 64)

/-- Split a list into 64-element chunks. -/
def chunks64 {α : Type} (l : List α) : List (List α) := chunks64F l.length l

/-- SHA-256 small sigma 0. -/
def ssig0 (x : Nat) : Nat := rotr32 7 x ^^^ rotr32 18 x ^^^ (x >>> 3)

/-- SHA-256 small sigma 1. -/
def ssig1 (x : Nat) : Nat := rotr32 17 x ^^^ rotr32 19 x ^^^ (x >>> 10)

/-- SHA-256 big Sigma 0. -/
def bsig0 (x : Nat) : Nat := rotr32 2 x ^^^ rotr32 13 x ^^^ rotr32 22 x

/-- SHA-256 big Sigma 1. -/
def bsig1 (x : Nat) : Nat := rotr32 6 x ^^^ rotr32 11 x ^^^ rotr32 25 x

/-- Extend the (reversed, newest-first) message schedule by `t` words. -/
def sha256Extend : Nat → List Nat → List Nat
  | 0, acc => acc
  | t + 1, acc =>
      sha256Extend t
        ((ssig1 (acc.getD 1 0) + acc.getD 6 0 + ssig0 (acc.getD 14 0) +
            acc.getD 15 0) % m32 :: acc)

/-- The full 64-word message schedule of one block. -/
def sha256Schedule (block : List Nat) : List Nat :=
  (sha256Extend 48 (bytesToWords block).reverse).reverse

/-- One SHA-256 round: state `[a,b,c,d,e,f,g,h]`, round input `k + w`. -/
def sha256Round (st : List Nat) (kw : Nat) : List Nat :=
  match st with
  | [a, b, c, d, e, f, g, h] =>
      let ch := (e &&& f) ^^^ ((e ^^^ 0xffffffff) &&& g)
      let maj := (a &&& b) ^^^ (a &&& c) ^^^ (b &&& c)
      let t1 := (h + bsig1 e + ch + kw) % m32
      let t2 := (bsig0 a + maj) % m32
      [(t1 + t2) % m32, a, b, c, (d + t1) % m32, e, f, g]
  | other => other

/-- Compress one 64-byte block into the running hash state. -/
def sha256Block (st block : List Nat) : List Nat :=
  let w := sha256Schedule block
  let kw := List.zipWith (fun k x => k + x) sha256K w
  let fin := kw.foldl sha256Round st
  List.zipWith (fun x y => (x + y) % m32) st fin

/-- Serialize 32-bit words as big-endian bytes. -/
def wordsToBytes : List Nat → List Nat
  | [] => []
  | w :: ws => beBytesPad 4 w ++ wordsToBytes ws

/-- SHA-256 of a byte list. -/
def sha256 (msg : List Nat) : List Nat :=
  wordsToBytes ((chunks64 (sha256Pad msg)).foldl sha256Block sha256H0)

/-! ## Base58

Modelled from the spec: the glossary defines Base58 / Base58Check, and the
source calls the vendored library routine `Bitcoin.Base58.decode`
(src/hederaCrypto.js lines 88, 99, 110), which is not under src/.  That
routine is *raw* Base58: it converts the string to a big integer, emits its
big-endian base-256 digits, prepends one zero byte per leading '1', and
throws only when a character is outside the Base58 alphabet.  (The source
itself splits off the 4 checksum bytes from the raw decode, see
`wifStrip` below, which is only consistent with the raw behaviour.) -/

/-- The Base58 alphabet. -/
def b58AlphabetS : String := "123456789ABCDEFGHJKLMNPQRSTUVWXYZabcdefghijkmnopqrstuvwxyz"

/-- The Base58 alphabet as a character list. -/
def b58Alphabet : List Char := b58AlphabetS.toList

/-- Index of a character in a list (list length when absent). -/
def idxOfChar (c : Char) : List Char → Nat
  | [] => 0
  | a :: r => if a == c then 0 else 1 + idxOfChar c r

/-- Digit value of a Base58 character. -/
def b58Val (c : Char) : Nat := idxOfChar c b58Alphabet

/-- Base58 character of a digit below 58. -/
def b58Char (d : Nat) : Char := b58Alphabet.getD d '?'

/-- Membership in the Base58 alphabet. -/
def isB58 (c : Char) : Bool := b58Alphabet.contains c

/-- Raw Base58 encoding of a byte string. -/
def base58Encode (bytes : List Nat) : List Char :=
  List.replicate (bytes.takeWhile (· == 0)).length '1' ++
    (beDigits 58 (natOfBE bytes)).map b58Char

/-- Raw Base58 decoding of a string; `none` models the exception thrown on
a character outside the alphabet. -/
def base58Decode (s : List Char) : Option (List Nat) :=
  if s.all isB58 then
    some (List.replicate (s.takeWhile (· == '1')).length 0 ++
      beDigits 256 (ofDigitsLE 58 ((s.map b58Val).reverse)))
  else none

/-- Modelled from the spec: §4.3 `Base58CheckCodec.encode` appends the
first 4 bytes of the double SHA-256 of the payload and Base58-encodes the
result.  (Used to build the well-formed inputs the claims quantify over;
the repository reaches the equivalent library encoder through
`bitjs.privkey2wif`, which is not under src/.) -/
def base58CheckEncode (payload : List Nat) : List Char :=
  base58Encode (payload ++ (sha256 (sha256 payload)).take 4)

/-- Modelled from the spec: §4.4 `WIFCodec.encode(scalar, v, c)` builds the
payload `v ‖ scalar ‖ (0x01 if c)` and Base58Check-encodes it. -/
def wifEncode (scalar : List Nat) (v : Nat) (c : Bool) : List Char :=
  base58CheckEncode (v :: scalar ++ if c then [1] else [])

/-! ## secp256k1 engine

Modelled from the spec: §4.2 `Secp256k1Engine.derivePublicKey` multiplies
the generator by the scalar and fails with `CurvePointInvalid` when the
scalar is outside `[1, n-1]`; serialization is the standard compressed /
uncompressed point format.  The repository reaches the equivalent code
through the vendored `Bitcoin.ECKey` / `bitjs.newPubkey` libraries, which
are not under src/. -/

/-- The secp256k1 field prime. -/
def pSecp : Nat := 0xfffffffffffffffffffffffffffffffffffffffffffffffffffffffefffffc2f

/-- The secp256k1 group order. -/
def nSecp : Nat := 0xfffffffffffffffffffffffffffffffffffffffffffffffffffffffebaaedce6af48a03bbfd25e8cd0364141

/-- x-coordinate of the secp256k1 generator. -/
def gX : Nat := 0x79be667ef9dcbbac55a06295ce870b07029bfcdb2dce28d959f2815b16f81798

/-- y-coordinate of the secp256k1 generator. -/
def gY : Nat := 0x483ada7726a3c4655da4fbfc0e1108a8fd17b448a68554199c47d08ffb10d4b8

/-- Strict sequencing on `Nat`: returns `k`, after forcing `x` to a
numeral (this keeps kernel reduction of the tail-recursive modular
exponentiation below iteration-count stack depth). -/
def nseq (x k : Nat) : Nat :=
  match x with
  | 0 => k
  | _ + 1 => k

/-- Fuel-driven binary modular exponentiation, tail-recursive with an
accumulator: `powModF fuel b e m acc = acc * b ^ e % m` (for `m > 1`,
`acc < m`, and enough fuel). -/
def powModF : Nat → Nat → Nat → Nat → Nat → Nat
  | 0, _, _, _, acc => acc
  | fuel + 1, b, e, m, acc =>
      if e = 0 then acc
      else
        let acc2 := if e % 2 = 1 then acc * b % m else acc
        nseq acc2 (nseq (b * b % m) (powModF fuel (b * b % m) (e / 2) m acc2))

/-- Inverse in the secp256k1 base field, via Fermat's little theorem. -/
def invModP (a : Nat) : Nat := powModF 300 a (pSecp - 2) pSecp 1

/-- A point on secp256k1: `none` is the point at infinity. -/
def ECPoint : Type := Option (Nat × Nat)

/-- Affine point addition on secp256k1 (curve `y^2 = x^3 + 7`). -/
def pAdd : ECPoint → ECPoint → ECPoint
  | none, q => q
  | some p, none => some p
  | some (x1, y1), some (x2, y2) =>
      if x1 = x2 then
        if y1 = y2 ∧ y1 ≠ 0 then
          let l := 3 * x1 * x1 % pSecp * invModP (2 * y1 % pSecp) % pSecp
          let x3 := (l * l % pSecp + 2 * pSecp - x1 - x2) % pSecp
          some (x3, (l * ((x1 + pSecp - x3) % pSecp) % pSecp + pSecp - y1) % pSecp)
        else none
      else
        let l := (y2 + pSecp - y1) % pSecp * invModP ((x2 + pSecp - x1) % pSecp) % pSecp
        let x3 := (l * l % pSecp + 2 * pSecp - x1 - x2) % pSecp
        some (x3, (l * ((x1 + pSecp - x3) % pSecp) % pSecp + pSecp - y1) % pSecp)

/-- Fuel-driven double-and-add scalar multiplication. -/
def pMulF : Nat → Nat → ECPoint → ECPoint
  | 0, _, _ => none
  | fuel + 1, k, p =>
      if k = 0 then none
      else
        let h := pMulF fuel (k / 2) (pAdd p p)
        if k % 2 = 1 then pAdd h p else h

/-- The secp256k1 generator point. -/
def pointG : ECPoint := some (gX, gY)

/-- Failure of public-key derivation (spec §4.2 / §7). -/
inductive DeriveError : Type
  | CurvePointInvalid : DeriveError
deriving DecidableEq

/-- Modelled from the spec: §4.2 `derivePublicKey(scalar) = scalar · G`,
failing with `CurvePointInvalid` on a scalar outside `[1, n-1]`. -/
def derivePublicKey (k : Nat) : Except DeriveError ECPoint :=
  if 1 ≤ k ∧ k < nSecp then Except.ok (pMulF 257 k pointG)
  else Except.error DeriveError.CurvePointInvalid

/-- 65-byte uncompressed serialization `04 ‖ x ‖ y` of a point. -/
def serializeUncompressed : ECPoint → List Nat
  | none => []
  | some (x, y) => 4 :: (beBytesPad 32 x ++ beBytesPad 32 y)

/-- 33-byte compressed serialization `02/03 ‖ x` of a point. -/
def serializeCompressed : ECPoint → List Nat
  | none => []
  | some (x, y) => (if y % 2 = 0 then 2 else 3) :: beBytesPad 32 x

/-! ## The embedding of `generateMultiChain` (src/hederaCrypto.js 61-178) -/

/-- The shared mutable configuration that `generateMultiChain` saves on
entry (lines 67-70) and restores before returning (lines 172-175). -/
structure Globals : Type where
  pub : Nat
  priv : Nat
  bitjsCompressed : Bool
  coinjsCompressed : Bool
deriving DecidableEq

/-- `result.BTC` / `result.FLO` entries of the returned record. -/
structure ChainEntry : Type where
  address : List Char
  privateKey : List Char
deriving DecidableEq

/-- `result.HBAR` entry of the returned record. -/
structure HBAREntry : Type where
  evmAddress : List Char
  publicKey : List Char
  privateKey : List Char
  address : List Char
deriving DecidableEq

/-- The record returned by `generateMultiChain` (line 119). -/
structure MultiChainResult : Type where
  BTC : ChainEntry
  FLO : ChainEntry
  HBAR : HBAREntry
deriving DecidableEq

/-- The vendored address/key encoders the BTC and FLO sections call
(`bitjs.newPubkey`, `coinjs.bech32Address(...).address`,
`bitjs.pubkey2address`, `bitjs.privkey2wif`); they are not under src/ and
are kept abstract.  Each reads the shared configuration, so it receives
the current `Globals`. -/
structure Ext : Type where
  newPubkey : Globals → List Char → List Char
  bech32Address : Globals → List Char → List Char
  pubkey2address : Globals → List Char → List Char
  privkey2wif : Globals → List Char → List Char

/-- Lines 89-94 (and 100-103, 111-114): split off the last 4 bytes, strip
the leading version byte without inspecting it, and strip a trailing
`0x01` from a key of at least 33 bytes.  The second component mirrors the
`compressed` variable, which is initialised to `true` on line 76 and is
only ever assigned `true` again (line 93), so it is `true` on both
branches. -/
def wifStrip (decoded : List Nat) : List Nat × Bool :=
  let keyWithVersion := jsSlice0 decoded ((decoded.length : Int) - 4)
  let key := keyWithVersion.drop 1
  if 33 ≤ key.length ∧ key.getLast? = some 1 then (key.dropLast, true)
  else (key, true)

/-- The WIF decode path of lines 88-95: raw Base58 decode (`none` = the
library threw), then `wifStrip`, then hex encoding of the key bytes. -/
def wifDecodeSrc (s : List Char) : Option (List Char × Bool) :=
  match base58Decode s with
  | some decoded => some (bytesToHex (wifStrip decoded).1, (wifStrip decoded).2)
  | none => none

/-- Lines 96-105 / 107-116: decode the freshly generated random key
(`generateNewID().privKey`, passed in as `fb`).  An exception here
(`Except.error`) propagates out of the whole function. -/
def fallbackDecode (fb : List Char) : Except Unit (List Char × Bool) :=
  match base58Decode fb with
  | some decoded => Except.ok (bytesToHex (wifStrip decoded).1, true)
  | none => Except.error ()

/-- Lines 75-116: turn the user input into `privKeyHex` (plus the
`compressed` flag).  `none` models a missing / non-string argument. -/
def decodePriv (fb : List Char) (input : Option (List Char)) :
    Except Unit (List Char × Bool) :=
  match input with
  | none => fallbackDecode fb
  | some s =>
      let t := jsTrim s
      if 0 < t.length then
        if (t.all isHexChar) ∧ (t.length = 64 ∨ t.length = 128) then
          Except.ok (if t.length = 128 then t.take 64 else t, true)
        else
          match wifDecodeSrc t with
          | some kc => Except.ok kc
          | none => fallbackDecode fb
      else fallbackDecode fb

/-- Lines 147-154: strip the `04` prefix from the uncompressed public key
hex, Keccak-256 it through the Web3 wrapper (which returns `0x` plus 64
hex characters; the Keccak core `kec` is abstract), and keep
`'0x' + hash.substring(26)`. -/
def hbarEvmFromPubHex (kec : List Nat → List Nat) (pubKeyHex : List Char) :
    List Char :=
  let pubKeyBytes := pubKeyHex.drop 2
  let hash := ['0', 'x'] ++ bytesToHex (kec (hexToBytes pubKeyBytes))
  ['0', 'x'] ++ hash.drop 26

/-- Lines 136-170: the HBAR section.  The`try` block derives the key pair
(the `Bitcoin.ECKey` construction is the spec-modelled `derivePublicKey`,
which fails on an out-of-range scalar); the `catch` block fills the entry
with the placeholder strings of lines 166-169. -/
def hbarSection (kec : List Nat → List Nat) (privKeyHex : List Char) :
    HBAREntry :=
  match derivePublicKey (natOfBE (hexToBytes (privKeyHex.take 64))) with
  | Except.ok pt =>
      let pubKeyHex := bytesToHex (serializeUncompressed pt)
      let evmAddress := hbarEvmFromPubHex kec pubKeyHex
      let compressedPubKey := bytesToHex (serializeCompressed pt)
      { evmAddress := evmAddress, publicKey := compressedPubKey,
        privateKey := privKeyHex.take 64, address := evmAddress }
  | Except.error _ =>
      { evmAddress := ("Error generating address").toList,
        publicKey := ("Error").toList,
        privateKey := privKeyHex,
        address := ("Error").toList }

/-- `generateMultiChain` (src/hederaCrypto.js lines 61-178).  Parameters:
the abstract external encoders `ext`, the abstract Keccak core `kec`, the
WIF of the freshly generated random fallback key `fb`, the incoming shared
configuration `g`, and the input string.  Returns the result record and
the outgoing shared configuration, or `Except.error` when an uncaught
exception rejects the call. -/
def generateMultiChain (ext : Ext) (kec : List Nat → List Nat)
    (fb : List Char) (g : Globals) (input : Option (List Char)) :
    Except Unit (MultiChainResult × Globals) :=
  let g1 : Globals := { g with bitjsCompressed := true, coinjsCompressed := true }
  match decodePriv fb input with
  | Except.error e => Except.error e
  | Except.ok (privKeyHex, _compressed) =>
      let g2 : Globals := { g1 with pub := 0x00, priv := 0x80 }
      let pubKeyBTC := ext.newPubkey g2 privKeyHex
      let btc : ChainEntry :=
        { address := ext.bech32Address g2 pubKeyBTC,
          privateKey := ext.privkey2wif g2 privKeyHex }
      let g3 : Globals := { g2 with pub := 0x23, priv := 0xa3 }
      let pubKeyFLO := ext.newPubkey g3 privKeyHex
      let flo : ChainEntry :=
        { address := ext.pubkey2address g3 pubKeyFLO,
          privateKey := ext.privkey2wif g3 privKeyHex }
      let hbar : HBAREntry := hbarSection kec privKeyHex
      let g4 : Globals :=
        { g3 with pub := g.pub, priv := g.priv,
                  bitjsCompressed := g.bitjsCompressed,
                  coinjsCompressed := g.coinjsCompressed }
      Except.ok ({ BTC := btc, FLO := flo, HBAR := hbar }, g4)

/-! ## Concrete instantiations used by closed theorems and witnesses -/

/-- A trivial instantiation of the abstract external encoders. -/
def dummyExt : Ext :=
  { newPubkey := fun _ _ => [], bech32Address := fun _ _ => [],
    pubkey2address := fun _ _ => [], privkey2wif := fun _ _ => [] }

/-- A trivial Keccak-256 core: 32 zero bytes. -/
def dummyKec : List Nat → List Nat := fun _ => List.replicate 32 0

/-- An arbitrary incoming shared configuration. -/
def gW : Globals := { pub := 5, priv := 7, bitjsCompressed := false, coinjsCompressed := true }

/-- The malformed input of spec §8. -/
def nak : List Char := ("not-a-key").toList

/-- The all-zero 64-character hex input. -/
def z64hex : List Char := List.replicate 64 '0'

/-- The 64-character hex encoding of the scalar 1. -/
def s1hex : List Char := List.replicate 63 '0' ++ ['1']

/-- A well-formed fallback WIF, as `generateNewID().privKey` would
produce: the compressed WIF of scalar 1 under version byte `0x80`. -/
def fbWif : List Char := base58CheckEncode (0x80 :: beBytesPad 32 1 ++ [1])

/-- A WIF payload (version `0x80`, scalar 2, compression flag). -/
def cexPayload : List Nat := 0x80 :: beBytesPad 32 2 ++ [1]

/-- The valid Base58Check string of `cexPayload`. -/
def wif2 : List Char := base58CheckEncode cexPayload

/-- `wif2` with one character corrupted (index 1, 'w' changed to 'x' —
both inside the Base58 alphabet). -/
def wif2c : List Char := wif2.set 1 'x'

/-- A second arbitrary incoming shared configuration. -/
def gW2 : Globals := { pub := 0, priv := 0, bitjsCompressed := true, coinjsCompressed := false }

/-- A 128-character hex input whose two 64-character halves differ. -/
def s128hex : List Char :=
  List.replicate 63 '0' ++ ['1'] ++ (List.replicate 63 '0' ++ ['2'])

/-! ## Model validation against published test vectors -/

/-- FIPS 180-4 test vector: SHA-256 of "abc". -/
theorem sha256_abc :
    bytesToHex (sha256 [97, 98, 99]) =
      ("ba7816bf8f01cfea414140de5dae2223b00361a396177a9cb410ff61f20015ad").toList := by
  rfl

/-- The well-known compressed WIF of the private key 1. -/
theorem wifEncode_scalar_one :
    wifEncode (beBytesPad 32 1) 0x80 true =
      ("KwDiBf89QgGbjEhKnhXJuH7LrciVrZi3qYjgd9M7rFU73sVHnoWn").toList := by
  rfl

/-- The secp256k1 point 2·G, from the standard test vectors. -/
theorem derivePublicKey_two :
    Except.map (fun pt => bytesToHex (serializeCompressed pt)) (derivePublicKey 2) =
      Except.ok
        (("02c6047f9441ed7d6d3045406e95c07cd85c778e4b8cef3ca7abac09b95c709ee5").toList) := by
  rfl

/-! ## Supporting lemmas: positional digits, SHA-256 shape, Base58 round-trip -/

theorem ofDigitsLE_eq (b : Nat) (L : List Nat) : ofDigitsLE b L = Nat.ofDigits b L := by
  induction L with
  | nil => simp [ofDigitsLE, Nat.ofDigits_nil]
  | cons d L ih =>
      simp only [ofDigitsLE, List.foldr_cons] at *
      rw [Nat.ofDigits_cons, ih]

theorem beDigitsF_eq {b : Nat} (hb : 2 ≤ b) :
    ∀ fuel n, n < 2 ^ fuel → beDigitsF b fuel n = (Nat.digits b n).reverse := by
  intro fuel
  induction fuel with
  | zero =>
      intro n hn
      have : n = 0 := by omega
      subst this
      simp [beDigitsF]
  | succ fuel ih =>
      intro n hn
      by_cases h0 : n = 0
      · subst h0
        simp [beDigitsF]
      · have hdiv : n / b ≤ n / 2 := Nat.div_le_div_left hb (by omega)
        have h2 : n / 2 < 2 ^ fuel := by
          rw [Nat.div_lt_iff_lt_mul (by omega)]
          calc n < 2 ^ (fuel + 1) := hn
          _ = 2 ^ fuel * 2 := by ring
        have hrec := ih (n / b) (by omega)
        rw [beDigitsF, if_neg h0, hrec,
          Nat.digits_def' (by omega : 1 < b) (by omega : 0 < n), List.reverse_cons]

theorem beDigits_eq {b : Nat} (hb : 2 ≤ b) (n : Nat) :
    beDigits b n = (Nat.digits b n).reverse :=
  beDigitsF_eq hb n n (Nat.lt_two_pow n)

theorem beDigits_lt {b n : Nat} (hb : 2 ≤ b) : ∀ d ∈ beDigits b n, d < b := by
  intro d hd
  rw [beDigits_eq hb] at hd
  exact Nat.digits_lt_base (by omega) (List.mem_reverse.mp hd)

theorem beDigits_length_le {b k n : Nat} (hb : 2 ≤ b) (h : n < b ^ k) :
    (beDigits b n).length ≤ k := by
  rw [beDigits_eq hb, List.length_reverse]
  by_cases h0 : n = 0
  · subst h0
    simp
  · rw [Nat.digits_len b n (by omega) h0]
    have := Nat.log_lt_of_lt_pow h0 h
    omega

theorem beBytesPad_length {len n : Nat} (h : n < 256 ^ len) :
    (beBytesPad len n).length = len := by
  have hle := beDigits_length_le (b := 256) (by omega) h
  simp [beBytesPad]
  omega

theorem beBytesPad_lt (len n : Nat) : ∀ x ∈ beBytesPad len n, x < 256 := by
  intro x hx
  rcases List.mem_append.mp hx with h | h
  · rw [List.mem_replicate] at h
    omega
  · exact beDigits_lt (by omega) x h

theorem natOfBE_pos {r0 : Nat} (rt : List Nat) (h : r0 ≠ 0) : 0 < natOfBE (r0 :: rt) := by
  rw [natOfBE, ofDigitsLE_eq, List.reverse_cons, Nat.ofDigits_append]
  have h1 : Nat.ofDigits 256 [r0] = (r0 : ℕ) := by
    simp [Nat.ofDigits]
  rw [h1]
  have h2 : 0 < 256 ^ rt.reverse.length * r0 :=
    Nat.mul_pos (Nat.pos_pow_of_pos _ (by omega)) (by omega)
  omega


theorem sha256Round_length (st : List Nat) (kw : Nat) :
    (sha256Round st kw).length = st.length := by
  unfold sha256Round
  split
  · simp
  · rfl

theorem foldl_sha256Round_length (l : List Nat) :
    ∀ st : List Nat, (l.foldl sha256Round st).length = st.length := by
  induction l with
  | nil => intro st; rfl
  | cons x l ih =>
      intro st
      rw [List.foldl_cons, ih, sha256Round_length]

theorem sha256Block_length {st : List Nat} (block : List Nat) (h : st.length = 8) :
    (sha256Block st block).length = 8 := by
  unfold sha256Block
  rw [List.length_zipWith, foldl_sha256Round_length]
  omega

theorem zipWith_mod_lt {l1 l2 : List Nat} :
    ∀ x ∈ List.zipWith (fun a b => (a + b) % m32) l1 l2, x < m32 := by
  induction l1 generalizing l2 with
  | nil => intro x hx; simp at hx
  | cons a l1 ih =>
      intro x hx
      cases l2 with
      | nil => simp at hx
      | cons b l2 =>
          rcases List.mem_cons.mp hx with h | h
          · subst h
            exact Nat.mod_lt _ (by decide)
          · exact ih x h

theorem sha256Block_lt (st block : List Nat) : ∀ x ∈ sha256Block st block, x < m32 := by
  unfold sha256Block
  exact zipWith_mod_lt

theorem foldl_sha256Block_lt (blocks : List (List Nat)) :
    ∀ st : List Nat, (∀ x ∈ st, x < m32) →
      ∀ x ∈ blocks.foldl sha256Block st, x < m32 := by
  induction blocks with
  | nil => intro st h; exact h
  | cons b blocks ih =>
      intro st _
      rw [List.foldl_cons]
      exact ih _ (sha256Block_lt st b)

theorem foldl_sha256Block_length (blocks : List (List Nat)) :
    ∀ st : List Nat, st.length = 8 → (blocks.foldl sha256Block st).length = 8 := by
  induction blocks with
  | nil => intro st h; exact h
  | cons b blocks ih =>
      intro st h
      rw [List.foldl_cons]
      exact ih _ (sha256Block_length b h)

theorem wordsToBytes_length (ws : List Nat) (h : ∀ w ∈ ws, w < m32) :
    (wordsToBytes ws).length = 4 * ws.length := by
  induction ws with
  | nil => rfl
  | cons w ws ih =>
      rw [wordsToBytes, List.length_append,
        beBytesPad_length (h w (List.mem_cons_self w ws)),
        ih (fun x hx => h x (List.mem_cons_of_mem w hx))]
      simp
      omega

theorem wordsToBytes_lt (ws : List Nat) : ∀ x ∈ wordsToBytes ws, x < 256 := by
  induction ws with
  | nil => intro x hx; simp [wordsToBytes] at hx
  | cons w ws ih =>
      intro x hx
      rcases List.mem_append.mp hx with h | h
      · exact beBytesPad_lt 4 w x h
      · exact ih x h

theorem sha256_length (msg : List Nat) : (sha256 msg).length = 32 := by
  unfold sha256
  rw [wordsToBytes_length _ (foldl_sha256Block_lt _ _ (by decide)),
    foldl_sha256Block_length _ _ (by decide)]

theorem sha256_lt (msg : List Nat) : ∀ x ∈ sha256 msg, x < 256 :=
  wordsToBytes_lt _


theorem b58Val_b58Char : ∀ d, d < 58 → b58Val (b58Char d) = d := by decide

theorem isB58_b58Char : ∀ d, d < 58 → isB58 (b58Char d) = true := by decide

theorem b58Char_ne_one : ∀ d, d < 58 → d ≠ 0 → (b58Char d == '1') = false := by decide

theorem takeWhile_replicate_append {α : Type} (p : α → Bool) (a : α) (hp : p a = true)
    (n : Nat) (l : List α) :
    (List.replicate n a ++ l).takeWhile p = List.replicate n a ++ l.takeWhile p := by
  induction n with
  | zero => simp
  | succ n ih => simp [List.replicate_succ, List.takeWhile_cons, hp, ih]

theorem ofDigitsLE_append_zeros (b : Nat) (L : List Nat) (z : Nat) :
    ofDigitsLE b (L ++ List.replicate z 0) = ofDigitsLE b L := by
  have hz : Nat.ofDigits b (List.replicate z 0) = 0 := by
    induction z with
    | zero => simp [Nat.ofDigits_nil]
    | succ z ih => simp [List.replicate_succ, Nat.ofDigits_cons, ih]
  rw [ofDigitsLE_eq, ofDigitsLE_eq, Nat.ofDigits_append, hz]
  simp

theorem natOfBE_replicate_zero_append (z : Nat) (r : List Nat) :
    natOfBE (List.replicate z 0 ++ r) = natOfBE r := by
  rw [natOfBE, natOfBE, List.reverse_append, List.reverse_replicate,
    ofDigitsLE_append_zeros]

theorem beDigits_head_ne_zero {b n d0 : Nat} {dt : List Nat} (hb : 2 ≤ b) (hn : n ≠ 0)
    (heq : beDigits b n = d0 :: dt) : d0 ≠ 0 := by
  rw [beDigits_eq hb] at heq
  have h1 : Nat.digits b n = dt.reverse ++ [d0] := by
    have h2 := congrArg List.reverse heq
    rw [List.reverse_reverse] at h2
    rw [h2, List.reverse_cons]
  have hne : Nat.digits b n ≠ [] := Nat.digits_ne_nil_iff_ne_zero.mpr hn
  have h2 : (Nat.digits b n).getLast? = some d0 := by
    rw [h1]
    exact List.getLast?_concat _
  rw [List.getLast?_eq_getLast _ hne] at h2
  have h3 := Nat.getLast_digit_ne_zero b hn
  intro h0
  rw [h0] at h2
  exact h3 (Option.some.inj h2)

theorem base58_roundtrip_aux (z : Nat) (r : List Nat) (hrlt : ∀ x ∈ r, x < 256)
    (hhead : r = [] ∨ ∃ r0 rt, r = r0 :: rt ∧ r0 ≠ 0) :
    base58Decode (base58Encode (List.replicate z 0 ++ r)) =
      some (List.replicate z 0 ++ r) := by
  rcases hhead with rfl | ⟨r0, rt, rfl, hr0⟩
  · -- all-zero input
    simp only [List.append_nil]
    have htake : (List.replicate z (0 : Nat)).takeWhile (· == 0) = List.replicate z 0 := by
      have h1 := takeWhile_replicate_append (· == (0 : Nat)) 0 rfl z []
      simpa using h1
    have hN0 : natOfBE (List.replicate z 0) = 0 := by
      have h1 := natOfBE_replicate_zero_append z []
      simpa [natOfBE, ofDigitsLE] using h1
    rw [base58Encode, htake, hN0]
    have hd0 : beDigits 58 0 = [] := rfl
    rw [hd0]
    simp only [List.map_nil, List.append_nil, List.length_replicate]
    rw [base58Decode, if_pos ?hall]
    case hall =>
      apply List.all_eq_true.mpr
      intro c hc
      rw [List.mem_replicate] at hc
      rw [hc.2]
      rfl
    have htake1 : (List.replicate z '1').takeWhile (· == '1') = List.replicate z '1' := by
      have h1 := takeWhile_replicate_append (· == '1') '1' rfl z []
      simpa using h1
    rw [htake1]
    simp only [List.length_replicate, List.map_replicate]
    have hv1 : b58Val '1' = 0 := rfl
    rw [hv1, List.reverse_replicate]
    have h58 : ofDigitsLE 58 (List.replicate z 0) = 0 := by
      have h1 := ofDigitsLE_append_zeros 58 [] z
      simpa [ofDigitsLE] using h1
    rw [h58]
    have hd1 : beDigits 256 0 = [] := rfl
    rw [hd1]
    simp
  · -- leading non-zero byte r0
    have hN := natOfBE_replicate_zero_append z (r0 :: rt)
    have hNpos : 0 < natOfBE (r0 :: rt) := natOfBE_pos rt hr0
    have hNne : natOfBE (r0 :: rt) ≠ 0 := by omega
    rcases hDget : beDigits 58 (natOfBE (r0 :: rt)) with _ | ⟨d0, dt⟩
    · exfalso
      rw [beDigits_eq (by omega)] at hDget
      have h1 : Nat.digits 58 (natOfBE (r0 :: rt)) = [] := by
        have h2 := congrArg List.reverse hDget
        rw [List.reverse_reverse] at h2
        simpa using h2
      exact (Nat.digits_ne_nil_iff_ne_zero.mpr hNne) h1
    have hd0ne : d0 ≠ 0 := beDigits_head_ne_zero (by omega) hNne hDget
    have hdlt : ∀ d ∈ d0 :: dt, d < 58 := by
      rw [← hDget]
      exact fun d hd => beDigits_lt (by omega) d hd
    have hd0lt : d0 < 58 := hdlt d0 (List.mem_cons_self _ _)
    have htake : (List.replicate z (0 : Nat) ++ r0 :: rt).takeWhile (· == 0) =
        List.replicate z 0 := by
      rw [takeWhile_replicate_append (· == (0 : Nat)) 0 rfl z (r0 :: rt),
        List.takeWhile_cons]
      have : (r0 == 0) = false := beq_eq_false_iff_ne.mpr hr0
      rw [this]
      simp
    rw [base58Encode, htake, hN, hDget]
    simp only [List.length_replicate, List.map_cons]
    rw [base58Decode, if_pos ?hall2]
    case hall2 =>
      apply List.all_eq_true.mpr
      intro c hc
      rcases List.mem_append.mp hc with h1 | h1
      · rw [List.mem_replicate] at h1
        rw [h1.2]
        rfl
      · rcases List.mem_cons.mp h1 with rfl | h2
        · exact isB58_b58Char d0 hd0lt
        · rcases List.mem_map.mp h2 with ⟨d, hd, rfl⟩
          exact isB58_b58Char d (hdlt d (List.mem_cons_of_mem _ hd))
    rw [takeWhile_replicate_append (· == '1') '1' rfl z
        (b58Char d0 :: List.map b58Char dt), List.takeWhile_cons,
      b58Char_ne_one d0 hd0lt hd0ne]
    simp only [Bool.false_eq_true, if_false, List.append_nil, List.length_replicate]
    rw [List.map_append, List.map_replicate]
    have hv1 : b58Val '1' = 0 := rfl
    rw [hv1]
    have hmapmap : List.map b58Val (List.map b58Char (d0 :: dt)) = d0 :: dt := by
      rw [List.map_map]
      have hid : List.map (b58Val ∘ b58Char) (d0 :: dt) = List.map id (d0 :: dt) := by
        apply List.map_congr_left
        intro d hd
        simpa using b58Val_b58Char d (hdlt d hd)
      rw [hid, List.map_id]
    simp only [List.map_cons] at hmapmap ⊢
    rw [hmapmap]
    rw [List.reverse_append, List.reverse_replicate, ofDigitsLE_append_zeros]
    have hofd : ofDigitsLE 58 (d0 :: dt).reverse = natOfBE (r0 :: rt) := by
      have h1 : (d0 :: dt).reverse = Nat.digits 58 (natOfBE (r0 :: rt)) := by
        rw [← hDget, beDigits_eq (by omega : 2 ≤ 58), List.reverse_reverse]
      rw [h1, ofDigitsLE_eq, Nat.ofDigits_digits]
    rw [hofd]
    have hrrev : Nat.digits 256 (natOfBE (r0 :: rt)) = (r0 :: rt).reverse := by
      rw [natOfBE, ofDigitsLE_eq]
      apply Nat.digits_ofDigits 256 (by omega) (r0 :: rt).reverse
      · intro x hx
        exact hrlt x (List.mem_reverse.mp hx)
      · intro hne
        have h2 : (r0 :: rt).reverse.getLast? = some r0 := by
          rw [List.reverse_cons]
          exact List.getLast?_concat _
        have h3 := List.getLast?_eq_getLast ((r0 :: rt).reverse) hne
        have h4 : (r0 :: rt).reverse.getLast hne = r0 :=
          Option.some.inj (h3.symm.trans h2)
        omega
    have hbd : beDigits 256 (natOfBE (r0 :: rt)) = r0 :: rt := by
      rw [beDigits_eq (by omega), hrrev, List.reverse_reverse]
    rw [hbd]

theorem dropWhile_head_false {α : Type} (p : α → Bool) :
    ∀ (l : List α) r0 rt, l.dropWhile p = r0 :: rt → p r0 = false := by
  intro l
  induction l with
  | nil =>
      intro r0 rt h
      simp [List.dropWhile] at h
  | cons a l ih =>
      intro r0 rt h
      rw [List.dropWhile_cons] at h
      cases hpa : p a with
      | true =>
          rw [hpa] at h
          simp at h
          exact ih r0 rt h
      | false =>
          rw [hpa] at h
          simp at h
          rw [← h.1]
          exact hpa

/-- Raw Base58 decoding inverts raw Base58 encoding on byte strings. -/
theorem base58_roundtrip (bytes : List Nat) (h : ∀ x ∈ bytes, x < 256) :
    base58Decode (base58Encode bytes) = some bytes := by
  have hsplit : List.takeWhile (· == 0) bytes ++ List.dropWhile (· == 0) bytes = bytes :=
    List.takeWhile_append_dropWhile (· == 0) bytes
  have htw : List.takeWhile (· == 0) bytes =
      List.replicate (List.takeWhile (· == 0) bytes).length 0 := by
    apply List.eq_replicate_of_mem
    intro x hx
    have hx2 := List.mem_takeWhile_imp hx
    simpa using hx2
  have hcase : List.dropWhile (· == 0) bytes = [] ∨
      ∃ r0 rt, List.dropWhile (· == 0) bytes = r0 :: rt ∧ r0 ≠ 0 := by
    rcases hd : List.dropWhile (· == 0) bytes with _ | ⟨r0, rt⟩
    · exact Or.inl rfl
    · refine Or.inr ⟨r0, rt, rfl, ?_⟩
      have hh := dropWhile_head_false (· == 0) bytes r0 rt hd
      exact beq_eq_false_iff_ne.mp hh
  have hrlt : ∀ x ∈ List.dropWhile (· == 0) bytes, x < 256 := fun x hx =>
    h x ((List.dropWhile_sublist (· == 0)).subset hx)
  have haux := base58_roundtrip_aux (List.takeWhile (· == 0) bytes).length
    (List.dropWhile (· == 0) bytes) hrlt hcase
  calc base58Decode (base58Encode bytes)
      = base58Decode (base58Encode
          (List.replicate (List.takeWhile (· == 0) bytes).length 0 ++
            List.dropWhile (· == 0) bytes)) := by
        rw [← htw, hsplit]
  _ = some (List.replicate (List.takeWhile (· == 0) bytes).length 0 ++
        List.dropWhile (· == 0) bytes) := haux
  _ = some bytes := by rw [← htw, hsplit]


theorem checksum4_length (payload : List Nat) :
    ((sha256 (sha256 payload)).take 4).length = 4 := by
  rw [List.length_take, sha256_length]
  omega

theorem checksum4_lt (payload : List Nat) :
    ∀ x ∈ (sha256 (sha256 payload)).take 4, x < 256 := fun x hx =>
  sha256_lt _ x (List.mem_of_mem_take hx)

theorem jsSlice0_of_len_sub_four {α : Type} (l : List α) (h : 4 ≤ l.length) :
    jsSlice0 l ((l.length : Int) - 4) = l.take (l.length - 4) := by
  unfold jsSlice0
  rw [if_neg ?h1]
  case h1 =>
    omega
  congr 1
  omega

theorem wifDecodeSrc_eq (t : List Char) (d : List Nat) (h : base58Decode t = some d) :
    wifDecodeSrc t = some (bytesToHex (wifStrip d).1, (wifStrip d).2) := by
  unfold wifDecodeSrc
  rw [h]



theorem isJsWS_of_isHexChar {c : Char} (h : isHexChar c = true) : isJsWS c = false := by
  have hp := of_decide_eq_true h
  simp only [isJsWS, Bool.or_eq_false_iff, beq_eq_false_iff_ne]
  omega

theorem dropWhile_of_all_false {α : Type} (p : α → Bool) (l : List α)
    (h : ∀ c ∈ l, p c = false) : l.dropWhile p = l := by
  cases l with
  | nil => rfl
  | cons a l =>
      rw [List.dropWhile_cons, h a (List.mem_cons_self _ _)]
      simp

theorem jsTrim_of_all_hex {s : List Char} (h : s.all isHexChar = true) : jsTrim s = s := by
  have hws : ∀ c ∈ s, isJsWS c = false := fun c hc =>
    isJsWS_of_isHexChar (List.all_eq_true.mp h c hc)
  unfold jsTrim
  rw [dropWhile_of_all_false _ _ hws,
    dropWhile_of_all_false _ _ (fun c hc => hws c (List.mem_reverse.mp hc)),
    List.reverse_reverse]

theorem decodePriv_hex (fb : List Char) (s : List Char)
    (hhex : s.all isHexChar = true) (hlen : s.length = 64 ∨ s.length = 128) :
    decodePriv fb (some s) =
      Except.ok (if s.length = 128 then s.take 64 else s, true) := by
  unfold decodePriv
  simp only [jsTrim_of_all_hex hhex]
  rw [if_pos (show 0 < s.length by omega), if_pos ⟨hhex, hlen⟩]







theorem hexDigitVal_hexDigitChar : ∀ d, d < 16 → hexDigitVal (hexDigitChar d) = d := by
  decide

theorem jsByteToHex_pair {b : Nat} (h : b < 256) :
    jsByteToHex b = [hexDigitChar (b / 16), hexDigitChar (b % 16)] := by
  unfold jsByteToHex
  by_cases h16 : b < 16
  · rw [if_pos h16]
    have h0 : b / 16 = 0 := by omega
    have hm : b % 16 = b := by omega
    rw [h0, hm]
    rfl
  · rw [if_neg h16]
    have hd : Nat.digits 16 b = [b % 16, b / 16] := by
      rw [Nat.digits_def' (by omega : 1 < 16) (by omega : 0 < b),
        Nat.digits_of_lt 16 (b / 16) (by omega) (by omega)]
    rw [beDigits_eq (by omega), hd]
    rfl

theorem bytesToHex_cons (b : Nat) (l : List Nat) :
    bytesToHex (b :: l) = jsByteToHex b ++ bytesToHex l := rfl

theorem hexToBytes_bytesToHex (l : List Nat) (h : ∀ b ∈ l, b < 256) :
    hexToBytes (bytesToHex l) = l := by
  induction l with
  | nil => rfl
  | cons b l ih =>
      have hb : b < 256 := h b (List.mem_cons_self _ _)
      rw [bytesToHex_cons, jsByteToHex_pair hb]
      show hexToBytes (hexDigitChar (b / 16) :: hexDigitChar (b % 16) :: bytesToHex l) = b :: l
      rw [hexToBytes]
      rw [hexDigitVal_hexDigitChar _ (by omega), hexDigitVal_hexDigitChar _ (by omega),
        ih (fun x hx => h x (List.mem_cons_of_mem _ hx))]
      congr 1
      omega

theorem bytesToHex_drop (k : Nat) (l : List Nat) (h : ∀ b ∈ l, b < 256) :
    bytesToHex (l.drop k) = (bytesToHex l).drop (2 * k) := by
  induction k generalizing l with
  | zero => simp
  | succ k ih =>
      cases l with
      | nil => simp [bytesToHex]
      | cons b l =>
          rw [List.drop_succ_cons, ih l (fun x hx => h x (List.mem_cons_of_mem _ hx)),
            bytesToHex_cons, jsByteToHex_pair (h b (List.mem_cons_self _ _))]
          show (bytesToHex l).drop (2 * k) =
            (hexDigitChar (b / 16) :: hexDigitChar (b % 16) :: bytesToHex l).drop (2 * (k + 1))
          have h2 : 2 * (k + 1) = 2 * k + 1 + 1 := by omega
          rw [h2, List.drop_succ_cons, List.drop_succ_cons]

theorem bytesToHex_length (l : List Nat) (h : ∀ b ∈ l, b < 256) :
    (bytesToHex l).length = 2 * l.length := by
  induction l with
  | nil => rfl
  | cons b l ih =>
      rw [bytesToHex_cons, jsByteToHex_pair (h b (List.mem_cons_self _ _)),
        List.length_append, ih (fun x hx => h x (List.mem_cons_of_mem _ hx))]
      simp
      omega

/-- C5 (structural core): on any 65-byte uncompressed public key, the HBAR
section computes `'0x'` followed by the lowercase hex of the last 20 bytes
of the Keccak-256 hash of the key with its leading byte removed. -/
theorem hbarEvm_structural (kec : List Nat → List Nat)
    (hkec : ∀ bs, (kec bs).length = 32 ∧ ∀ b ∈ kec bs, b < 256)
    (pk : List Nat) (hpk : pk.length = 65) (hlt : ∀ b ∈ pk, b < 256) :
    hbarEvmFromPubHex kec (bytesToHex pk) =
      ['0', 'x'] ++ bytesToHex ((kec (pk.drop 1)).drop 12) := by
  obtain ⟨p0, rest, rfl⟩ : ∃ p0 rest, pk = p0 :: rest := by
    cases pk with
    | nil => simp at hpk
    | cons p0 rest => exact ⟨p0, rest, rfl⟩
  unfold hbarEvmFromPubHex
  have hdrop2 : (bytesToHex (p0 :: rest)).drop 2 = bytesToHex rest := by
    rw [bytesToHex_cons, jsByteToHex_pair (hlt p0 (List.mem_cons_self _ _))]
    rfl
  rw [hdrop2]
  have hrest : ∀ b ∈ rest, b < 256 := fun b hb => hlt b (List.mem_cons_of_mem _ hb)
  have hdrop1 : (p0 :: rest).drop 1 = rest := rfl
  rw [hdrop1]
  show ['0', 'x'] ++ (['0', 'x'] ++
      bytesToHex (kec (hexToBytes (bytesToHex rest)))).drop 26 =
    ['0', 'x'] ++ bytesToHex ((kec rest).drop 12)
  rw [hexToBytes_bytesToHex rest hrest]
  have h26 : (['0', 'x'] ++ bytesToHex (kec rest)).drop 26 =
      (bytesToHex (kec rest)).drop 24 := rfl
  rw [h26, bytesToHex_drop 12 (kec rest) (hkec rest).2]


/-! ## Claim theorems -/

/-- C1: on the malformed input "not-a-key" (neither hex nor inside the
Base58 alphabet), `generateMultiChain` does NOT fail with a typed error:
it behaves exactly like the no-input call — it substitutes the freshly
generated random key `fb` — and, whenever the fallback WIF decodes, it
returns a `Wallet` normally.  This refutes the claim as stated about the
code and demonstrates the silent-fallback defect the spec (§4.1, §7, §9)
orders removed. -/
theorem notAKey_substitutes_random_key :
    (∀ (ext : Ext) (kec : List Nat → List Nat) (fb : List Char) (g : Globals),
      generateMultiChain ext kec fb g (some nak) =
        generateMultiChain ext kec fb g none) ∧
    (generateMultiChain dummyExt dummyKec fbWif gW (some nak)).isOk = true :=
  ⟨fun _ _ _ _ => rfl, by decide⟩

/-- C2: when the HBAR derivation step fails (here: the all-zero scalar,
rejected by the curve engine), `generateMultiChain` still returns a
`Wallet` normally, with the HBAR entry holding the placeholder strings of
src/hederaCrypto.js lines 166-169 — a partial wallet, not a rejection.
This refutes the claim as stated about the code. -/
theorem hbar_failure_returns_placeholder_wallet :
    Except.map (fun p => p.1.HBAR)
        (generateMultiChain dummyExt dummyKec fbWif gW (some z64hex)) =
      Except.ok { evmAddress := ("Error generating address").toList,
                  publicKey := ("Error").toList,
                  privateKey := z64hex, address := ("Error").toList } := by
  rfl

/-- C3: `wif2` is a checksum-valid Base58Check string (its raw decode is
its payload followed by the first 4 bytes of the double SHA-256 of that
payload), yet the decode path of src/hederaCrypto.js lines 88-95 accepts
the single-character corruption `wif2c` and returns a DIFFERENT key: the
checksum is sliced off without ever being recomputed, so corruption does
not yield a `ChecksumMismatch` failure.  This refutes the claim as stated
about the code. -/
theorem corrupted_base58check_decoded_without_checksum_error :
    base58Decode wif2 = some (cexPayload ++ (sha256 (sha256 cexPayload)).take 4) ∧
    (wifDecodeSrc wif2c).isSome = true ∧
    wifDecodeSrc wif2c ≠ wifDecodeSrc wif2 :=
  ⟨by rfl, by rfl, by decide⟩

/-- C6 (counterexample): decoding the WIF encoding of (scalar 1,
version `0x80`, compressed = false) yields the pair (scalar 1, true) —
the `compressed` flag is initialised to `true` on line 76 and never set to
`false`, so the flag is not round-tripped and the claimed identity
`decode(encode(s, v, c)) = (s, c)` fails at `c = false`. -/
theorem wif_uncompressed_flag_not_roundtripped :
    wifDecodeSrc (wifEncode (beBytesPad 32 1) 0x80 false) =
      some (bytesToHex (beBytesPad 32 1), true) ∧
    (some (bytesToHex (beBytesPad 32 1), true) : Option (List Char × Bool)) ≠
      some (bytesToHex (beBytesPad 32 1), false) :=
  ⟨by decide, by decide⟩

/-- C7: the WIF decode path never inspects the version byte: encoding
scalar 1 under the wrong version byte 66 (0x42) decodes successfully, to
the very same key as under 0x80 — line 90 strips the leading byte
unconditionally, and no `UnsupportedVersionByte` failure exists in the
code.  This refutes the claim as stated about the code. -/
theorem wif_version_byte_not_verified :
    wifDecodeSrc (wifEncode (beBytesPad 32 1) 66 true) =
      some (bytesToHex (beBytesPad 32 1), true) ∧
    wifDecodeSrc (wifEncode (beBytesPad 32 1) 0x80 true) =
      some (bytesToHex (beBytesPad 32 1), true) :=
  ⟨by rfl, by rfl⟩

/-- C8: the (spec-modelled) public-key derivation fails with
`CurvePointInvalid` exactly on the scalars outside `[1, n-1]`; in
particular the all-zero 64-hex input decodes to the scalar 0 and is
rejected, so derivation never proceeds on an out-of-range scalar. -/
theorem derivePublicKey_out_of_range_fails :
    (∀ k : Nat,
      derivePublicKey k = Except.error DeriveError.CurvePointInvalid ↔
        (k = 0 ∨ nSecp ≤ k)) ∧
    natOfBE (hexToBytes z64hex) = 0 ∧
    derivePublicKey (natOfBE (hexToBytes z64hex)) =
      Except.error DeriveError.CurvePointInvalid := by
  refine ⟨fun k => ?_, by rfl, by rfl⟩
  by_cases h : 1 ≤ k ∧ k < nSecp
  · unfold derivePublicKey
    rw [if_pos h]
    constructor
    · intro hc
      exact Except.noConfusion hc
    · intro hk
      exact absurd hk (by omega)
  · unfold derivePublicKey
    rw [if_neg h]
    constructor
    · intro _
      omega
    · intro _
      rfl


/-- C6 (amended): for every valid scalar and version byte, the WIF decode
path of src/hederaCrypto.js lines 88-95 inverts the spec's WIF encoding
when the compression flag is `true` (the flag it reports is always
`true`). -/
theorem wif_roundtrip_compressed (s : List Nat) (v : Nat)
    (hlen : s.length = 32) (hlt : ∀ b ∈ s, b < 256) (hv : v < 256)
    (hran : 1 ≤ natOfBE s ∧ natOfBE s < nSecp) :
    wifDecodeSrc (wifEncode s v true) = some (bytesToHex s, true) := by
  have hpayload_len : (v :: (s ++ [1])).length = 34 := by
    simp [hlen]
  have hfull_lt : ∀ x ∈ (v :: (s ++ [1])) ++
      (sha256 (sha256 (v :: (s ++ [1])))).take 4, x < 256 := by
    intro x hx
    rcases List.mem_append.mp hx with h1 | h1
    · rcases List.mem_cons.mp h1 with rfl | h2
      · exact hv
      · rcases List.mem_append.mp h2 with h3 | h3
        · exact hlt x h3
        · simp at h3
          omega
    · exact checksum4_lt _ x h1
  have hfull_len : ((v :: (s ++ [1])) ++
      (sha256 (sha256 (v :: (s ++ [1])))).take 4).length = 38 := by
    rw [List.length_append, hpayload_len, checksum4_length]
  have hrt := base58_roundtrip _ hfull_lt
  have henc : wifEncode s v true =
      base58Encode ((v :: (s ++ [1])) ++
        (sha256 (sha256 (v :: (s ++ [1])))).take 4) := by
    rfl
  have hstrip : wifStrip ((v :: (s ++ [1])) ++
      (sha256 (sha256 (v :: (s ++ [1])))).take 4) = (s, true) := by
    simp only [wifStrip]
    rw [jsSlice0_of_len_sub_four _ (by rw [hfull_len]; omega), hfull_len,
      show (38 - 4 : Nat) = (v :: (s ++ [1])).length from hpayload_len.symm,
      List.take_left]
    have hdrop : (v :: (s ++ [1])).drop 1 = s ++ [1] := rfl
    rw [hdrop]
    have hcond : 33 ≤ (s ++ [1]).length ∧ (s ++ [1]).getLast? = some 1 := by
      constructor
      · simp [hlen]
      · exact List.getLast?_concat _
    rw [if_pos hcond, List.dropLast_concat]
  rw [henc, wifDecodeSrc_eq _ _ hrt, hstrip]

/-- C4: a 128-character hex input is decoded to its first 64 characters,
and the whole derivation agrees with the derivation from those first 64
characters alone. -/
theorem hex128_uses_first_64 (ext : Ext) (kec : List Nat → List Nat)
    (fb : List Char) (g : Globals) (s : List Char)
    (hhex : s.all isHexChar = true) (hlen : s.length = 128) :
    decodePriv fb (some s) = Except.ok (s.take 64, true) ∧
    generateMultiChain ext kec fb g (some s) =
      generateMultiChain ext kec fb g (some (s.take 64)) := by
  have h1 := decodePriv_hex fb s hhex (Or.inr hlen)
  rw [if_pos hlen] at h1
  have htake_hex : (s.take 64).all isHexChar = true := by
    rw [List.all_eq_true] at hhex ⊢
    exact fun c hc => hhex c (List.mem_of_mem_take hc)
  have htl : (s.take 64).length = 64 := by
    rw [List.length_take]
    omega
  have h2 := decodePriv_hex fb (s.take 64) htake_hex (Or.inl htl)
  rw [if_neg (by omega : ¬ (s.take 64).length = 128)] at h2
  refine ⟨h1, ?_⟩
  unfold generateMultiChain
  rw [h1, h2]

/-- C9: derivation from a hex-scalar input is deterministic — the result
record does not depend on the fallback random key nor on the incoming
shared configuration. -/
theorem hex_derivation_deterministic (ext : Ext) (kec : List Nat → List Nat)
    (fb1 fb2 : List Char) (g1 g2 : Globals) (s : List Char)
    (hhex : s.all isHexChar = true) (hlen : s.length = 64 ∨ s.length = 128) :
    Except.map Prod.fst (generateMultiChain ext kec fb1 g1 (some s)) =
      Except.map Prod.fst (generateMultiChain ext kec fb2 g2 (some s)) := by
  have h1 := decodePriv_hex fb1 s hhex hlen
  have h2 := decodePriv_hex fb2 s hhex hlen
  unfold generateMultiChain
  rw [h1, h2]
  rfl

/-- C10: whenever `generateMultiChain` returns normally, the outgoing
shared configuration equals the incoming one (lines 67-70 save it, lines
172-175 restore it). -/
theorem generateMultiChain_restores_globals (ext : Ext) (kec : List Nat → List Nat)
    (fb : List Char) (g : Globals) (input : Option (List Char)) (g2 : Globals)
    (h : Except.map Prod.snd (generateMultiChain ext kec fb g input) = Except.ok g2) :
    g2 = g := by
  unfold generateMultiChain at h
  rcases hd : decodePriv fb input with e | ⟨k, c⟩ <;> rw [hd] at h
  · simp [Except.map] at h
  · simp only [Except.map] at h
    rcases g with ⟨gp, gv, gb, gc⟩
    exact (Except.ok.inj h).symm

/-- C5: (i) for every Keccak core producing 32 bytes and every 65-byte
uncompressed public key, the HBAR section computes the address as `'0x'`
followed by the lowercase hex encoding of the last 20 bytes of Keccak-256
of the key with its leading `0x04` byte removed; (ii) the scalar 1
derives the compressed public key of the known secp256k1 test vector;
(iii) the full pipeline on the 64-hex encoding of the scalar 1 reports
exactly that compressed public key. -/
theorem hbar_evm_address_spec :
    (∀ kec : List Nat → List Nat,
      (∀ bs, (kec bs).length = 32 ∧ ∀ b ∈ kec bs, b < 256) →
      ∀ pk : List Nat, pk.length = 65 → (∀ b ∈ pk, b < 256) →
        hbarEvmFromPubHex kec (bytesToHex pk) =
          ['0', 'x'] ++ bytesToHex ((kec (pk.drop 1)).drop 12)) ∧
    Except.map (fun pt => bytesToHex (serializeCompressed pt)) (derivePublicKey 1) =
      Except.ok
        (("0279be667ef9dcbbac55a06295ce870b07029bfcdb2dce28d959f2815b16f81798").toList) ∧
    Except.map (fun p => p.1.HBAR.publicKey)
        (generateMultiChain dummyExt dummyKec fbWif gW (some s1hex)) =
      Except.ok
        (("0279be667ef9dcbbac55a06295ce870b07029bfcdb2dce28d959f2815b16f81798").toList) :=
  ⟨fun kec hk pk h65 hlt => hbarEvm_structural kec hk pk h65 hlt, by rfl, by rfl⟩

/-! ## Witnesses -/

/-- Witness for C4 at a concrete 128-hex input with two distinct halves. -/
theorem hex128_uses_first_64_witness :
    (s128hex.all isHexChar = true ∧ s128hex.length = 128) ∧
    generateMultiChain dummyExt dummyKec fbWif gW (some s128hex) =
      generateMultiChain dummyExt dummyKec fbWif gW (some (s128hex.take 64)) :=
  ⟨⟨by decide, by decide⟩,
   (hex128_uses_first_64 dummyExt dummyKec fbWif gW s128hex (by decide) (by decide)).2⟩

/-- Witness for C5 at the concrete Keccak core `dummyKec` and the
uncompressed serialization of the generator point. -/
theorem hbar_evm_address_spec_witness :
    (serializeUncompressed pointG).length = 65 ∧
    hbarEvmFromPubHex dummyKec (bytesToHex (serializeUncompressed pointG)) =
      ['0', 'x'] ++ bytesToHex ((dummyKec ((serializeUncompressed pointG).drop 1)).drop 12) :=
  ⟨by decide,
   hbar_evm_address_spec.1 dummyKec
     (fun bs => ⟨by simp [dummyKec], fun b hb => by
        simp [dummyKec, List.mem_replicate] at hb
        omega⟩)
     (serializeUncompressed pointG) (by decide) (by decide)⟩

/-- Witness for C6 at scalar 1, version byte 0x80. -/
theorem wif_roundtrip_compressed_witness :
    ((beBytesPad 32 1).length = 32 ∧ (0x80 : Nat) < 256 ∧
      1 ≤ natOfBE (beBytesPad 32 1) ∧ natOfBE (beBytesPad 32 1) < nSecp) ∧
    wifDecodeSrc (wifEncode (beBytesPad 32 1) 0x80 true) =
      some (bytesToHex (beBytesPad 32 1), true) :=
  ⟨by decide,
   wif_roundtrip_compressed (beBytesPad 32 1) 0x80 (by decide) (by decide)
     (by decide) (by decide)⟩

/-- Witness for C9: two calls with different fallback keys and different
incoming configurations on the hex encoding of the scalar 1. -/
theorem hex_derivation_deterministic_witness :
    (s1hex.all isHexChar = true ∧ (s1hex.length = 64 ∨ s1hex.length = 128)) ∧
    Except.map Prod.fst (generateMultiChain dummyExt dummyKec fbWif gW (some s1hex)) =
      Except.map Prod.fst (generateMultiChain dummyExt dummyKec [] gW2 (some s1hex)) :=
  ⟨⟨by decide, by decide⟩,
   hex_derivation_deterministic dummyExt dummyKec fbWif [] gW gW2 s1hex
     (by decide) (by decide)⟩

/-- Witness for C10 at a concrete call that returns normally. -/
theorem generateMultiChain_restores_globals_witness :
    Except.map Prod.snd (generateMultiChain dummyExt dummyKec fbWif gW (some z64hex)) =
      Except.ok gW ∧ gW = gW :=
  ⟨by rfl,
   generateMultiChain_restores_globals dummyExt dummyKec fbWif gW (some z64hex) gW
     (by rfl)⟩

end Hedera
